import Mathlib

set_option maxRecDepth 100000

/-!
Verification of the single-file arithmetic compiler `9cc.c`
(tokenizer, recursive-descent parser, stack-machine code generator).

The embedding below translates the C source function by function:

* machine integers are modelled as `Int` with explicit narrowing where the
  C code narrows (`int_of_long` models the `long` → `int` conversion at the
  call `new_num(expect_number())`; `wrap64` models 64-bit register wraparound);
* the global cursor `token` becomes explicit state passing: each parser
  function takes the remaining token list and returns it;
* `exit(1)` inside `error` / `error_at` becomes an `Except`-style error value
  carrying the source offset and message that `error_at` would print;
* the unbounded `for (;;)` loops and the mutual recursion of
  `expr` / `mul` / `primary` are driven by an explicit fuel parameter.
  Fuel exhaustion is a distinguished result (`PResult.fuelOut`) and is proved
  unreachable for the fuel amounts the pipeline uses, so the model agrees with
  the C program on every input.
-/

namespace NineCC

/-- C `isspace` in the C locale over ASCII: space (32) and `\t\n\v\f\r` (9..13). -/
def isspace (c : Char) : Bool :=
  decide (c.toNat = 32 ∨ (9 ≤ c.toNat ∧ c.toNat ≤ 13))

/-- C `isdigit`: ASCII `0`..`9` (48..57). -/
def isdigit (c : Char) : Bool :=
  decide (48 ≤ c.toNat ∧ c.toNat ≤ 57)

/-- C `isalpha` in the C locale: ASCII letters. -/
def isalpha (c : Char) : Bool :=
  decide ((65 ≤ c.toNat ∧ c.toNat ≤ 90) ∨ (97 ≤ c.toNat ∧ c.toNat ≤ 122))

/-- C `ispunct` in the C locale: printable (33..126), not alphanumeric. -/
def ispunct (c : Char) : Bool :=
  decide (33 ≤ c.toNat ∧ c.toNat ≤ 126) && !(isdigit c) && !(isalpha c)

/-- `TokenKind` from the source (TK_RESERVED / TK_NUM / TK_EOF). -/
inductive TokenKind where
  | TK_RESERVED
  | TK_NUM
  | TK_EOF
deriving DecidableEq, Repr

/-- `struct Token`.  The C token stores a pointer `str` into `user_input`;
we store the same information as the offset `str` (what `error_at` computes
as `loc - user_input`) together with `ch`, the character `str[0]` that
`consume` / `expect` inspect.  `val` is 0 except for `TK_NUM` (calloc zeroes
the struct).  The `next` pointer becomes the list structure. -/
structure Token where
  kind : TokenKind
  val : Int
  str : Nat
  ch : Char
deriving DecidableEq, Repr

/-- The data `error_at(loc, fmt, ...)` prints before `exit(1)`:
the offset `loc - user_input` and the formatted message. -/
structure CError where
  pos : Nat
  msg : String
deriving DecidableEq, Repr

/-- Result of a fueled computation that can also fail like `error_at`. -/
inductive PResult (α : Type) where
  | ok (a : α)
  | err (e : CError)
  | fuelOut
deriving DecidableEq, Repr

/-- `LONG_MAX` on the 64-bit target. -/
def LONG_MAX : Int := 2 ^ 63 - 1

/-- Base-10 value of a digit run, as `strtol` accumulates it. -/
def digitsVal (l : List Char) : Nat :=
  l.foldl (fun acc c => acc * 10 + (c.toNat - 48)) 0

/-- `strtol(p, &p, 10)` on a string starting with this digit run:
the base-10 value, saturated at `LONG_MAX` on overflow. -/
def strtol_val (run : List Char) : Int :=
  min (digitsVal run : Int) LONG_MAX

/-- `tokenize` (lines 97-127), one fuel unit per loop iteration.  Each
iteration consumes at least one character, so fuel `s.length + 1` suffices
(proved in `tokenize_no_fuelOut`).  Positions count characters from the start
of `user_input`; the `TK_EOF` token records the offset of the terminating NUL,
i.e. the length of the input. -/
def tokenize : Nat → List Char → Nat → PResult (List Token)
  | 0, _, _ => .fuelOut
  | _ + 1, [], pos => .ok [⟨.TK_EOF, 0, pos, '\x00'⟩]
  | fuel + 1, c :: rest, pos =>
    if isspace c then
      -- skip whitespace characters
      tokenize fuel rest (pos + 1)
    else if ispunct c then
      -- punctuators
      match tokenize fuel rest (pos + 1) with
      | .ok ts => .ok (⟨.TK_RESERVED, 0, pos, c⟩ :: ts)
      | .err e => .err e
      | .fuelOut => .fuelOut
    else if isdigit c then
      -- integer literal: strtol consumes the maximal digit run
      match tokenize fuel (rest.dropWhile isdigit) (pos + (c :: rest.takeWhile isdigit).length) with
      | .ok ts => .ok (⟨.TK_NUM, strtol_val (c :: rest.takeWhile isdigit), pos, c⟩ :: ts)
      | .err e => .err e
      | .fuelOut => .fuelOut
    else
      .err ⟨pos, "invalid token"⟩

/-- Top-level tokenization of the whole input, as `main` calls it. -/
def tokenize0 (s : List Char) : PResult (List Token) :=
  tokenize (s.length + 1) s 0

/-- `consume` (lines 57-63): the global cursor `token` becomes the list
argument; the returned list is the cursor after the call.  The C stream is
NUL... EOF-terminated and the parser never advances past `TK_EOF`, so the
empty-list case is unreachable when used from the pipeline. -/
def consume (op : Char) (ts : List Token) : Bool × List Token :=
  match ts with
  | [] => (false, ts)
  | t :: rest =>
    if t.kind ≠ .TK_RESERVED ∨ t.ch ≠ op then (false, t :: rest)
    else (true, rest)

/-- The message `"expected: '%c'"` formatted by `expect`. -/
def expect_msg (op : Char) : String :=
  "expected: " ++ String.mk ['\'', op, '\'']

/-- `expect` (lines 66-71). -/
def expect (op : Char) (ts : List Token) : Except CError (List Token) :=
  match ts with
  | [] => .error ⟨0, expect_msg op⟩
  | t :: rest =>
    if t.kind ≠ .TK_RESERVED ∨ t.ch ≠ op then .error ⟨t.str, expect_msg op⟩
    else .ok rest

/-- `expect_number` (lines 74-81): returns the `long` value and advances. -/
def expect_number (ts : List Token) : Except CError (Int × List Token) :=
  match ts with
  | [] => .error ⟨0, "expected a number"⟩
  | t :: rest =>
    if t.kind ≠ .TK_NUM then .error ⟨t.str, "expected a number"⟩
    else .ok (t.val, rest)

/-- `at_eof` (lines 83-85).  Note: `main` never calls this. -/
def at_eof (ts : List Token) : Bool :=
  match ts with
  | t :: _ => t.kind = .TK_EOF
  | [] => false

/-- `NodeKind` from the source. -/
inductive NodeKind where
  | ND_ADD
  | ND_SUB
  | ND_MUL
  | ND_DIV
  | ND_NUM
deriving DecidableEq, Repr

/-- `struct Node`.  A `num` node is built by `new_num` (kind `ND_NUM`, no
children); a `binary` node is built by `new_binary` and carries the kind and
both children.  The source never builds a `binary` node with kind `ND_NUM`,
but the representation allows it, as the C struct does. -/
inductive Node where
  | num (val : Int)
  | binary (kind : NodeKind) (lhs rhs : Node)
deriving DecidableEq, Repr

/-- `new_binary` (lines 156-161). -/
def new_binary (kind : NodeKind) (lhs rhs : Node) : Node :=
  .binary kind lhs rhs

/-- `new_num` (lines 163-167).  Its parameter has C type `int`; the value it
receives is already narrowed at the call site. -/
def new_num (val : Int) : Node :=
  .num val

/-- The `long` → `int` conversion performed at the call
`new_num(expect_number())` (line 211).  For out-of-range values this is
implementation-defined in C; the 64-bit gcc/clang targets this compiler
emits code for reduce modulo 2^32 into the signed 32-bit range, which is
what this models. -/
def int_of_long (v : Int) : Int :=
  (v + 2 ^ 31) % 2 ^ 32 - 2 ^ 31

mutual

/-- `expr` (lines 174-186): `expr = mul ("+" mul | "-" mul)*`.
One fuel unit per call; the `for (;;)` loop body is `expr_loop`. -/
def expr : Nat → List Token → PResult (Node × List Token)
  | 0, _ => .fuelOut
  | fuel + 1, ts =>
    match mul fuel ts with
    | .ok (node, ts1) => expr_loop fuel node ts1
    | .err e => .err e
    | .fuelOut => .fuelOut

/-- The `for (;;)` loop of `expr` (lines 177-185), with `node` the running
accumulator. -/
def expr_loop : Nat → Node → List Token → PResult (Node × List Token)
  | 0, _, _ => .fuelOut
  | fuel + 1, node, ts =>
    match consume '+' ts with
    | (true, ts1) =>
      match mul fuel ts1 with
      | .ok (rhs, ts2) => expr_loop fuel (new_binary .ND_ADD node rhs) ts2
      | .err e => .err e
      | .fuelOut => .fuelOut
    | (false, _) =>
      match consume '-' ts with
      | (true, ts1) =>
        match mul fuel ts1 with
        | .ok (rhs, ts2) => expr_loop fuel (new_binary .ND_SUB node rhs) ts2
        | .err e => .err e
        | .fuelOut => .fuelOut
      | (false, _) => .ok (node, ts)

/-- `mul` (lines 189-201).  Its comment documents the grammar
`mul = primary ("*" primary | "/" primary)*`, but the loop body recurses
into `mul` for the right operand (see `mul_loop`). -/
def mul : Nat → List Token → PResult (Node × List Token)
  | 0, _ => .fuelOut
  | fuel + 1, ts =>
    match primary fuel ts with
    | .ok (node, ts1) => mul_loop fuel node ts1
    | .err e => .err e
    | .fuelOut => .fuelOut

/-- The `for (;;)` loop of `mul` (lines 192-200).  The right operand of
`*` and `/` is parsed by a recursive call to `mul` (lines 194 and 196),
exactly as the source does — not by `primary` as the grammar comment says. -/
def mul_loop : Nat → Node → List Token → PResult (Node × List Token)
  | 0, _, _ => .fuelOut
  | fuel + 1, node, ts =>
    match consume '*' ts with
    | (true, ts1) =>
      match mul fuel ts1 with
      | .ok (rhs, ts2) => mul_loop fuel (new_binary .ND_MUL node rhs) ts2
      | .err e => .err e
      | .fuelOut => .fuelOut
    | (false, _) =>
      match consume '/' ts with
      | (true, ts1) =>
        match mul fuel ts1 with
        | .ok (rhs, ts2) => mul_loop fuel (new_binary .ND_DIV node rhs) ts2
        | .err e => .err e
        | .fuelOut => .fuelOut
      | (false, _) => .ok (node, ts)

/-- `primary` (lines 204-212): `primary = "(" expr ")" | num`. -/
def primary : Nat → List Token → PResult (Node × List Token)
  | 0, _ => .fuelOut
  | fuel + 1, ts =>
    match consume '(' ts with
    | (true, ts1) =>
      match expr fuel ts1 with
      | .ok (node, ts2) =>
        match expect ')' ts2 with
        | .ok ts3 => .ok (node, ts3)
        | .error e => .err e
      | .err e => .err e
      | .fuelOut => .fuelOut
    | (false, _) =>
      match expect_number ts with
      | .ok (v, ts1) => .ok (new_num (int_of_long v), ts1)
      | .error e => .err e

end

/-- Fuel that `main`-level parsing uses.  Every parser call either moves one
token or moves down the fixed rank order `expr > expr_loop > mul > mul_loop >
primary`, so `5 * n + 5` fuel never runs out on a stream of `n` tokens
(proved in `parse_no_fuelOut`). -/
def parse_fuel (ts : List Token) : Nat :=
  5 * ts.length + 5

/-- The instructions `gen` and the `main` epilogue print (lines 217-246
and 267-268), one constructor per distinct text line. -/
inductive Instr where
  | push_imm (v : Int)
  | push_rax
  | pop_rdi
  | pop_rax
  | add_rax_rdi
  | sub_rax_rdi
  | imul_rax_rdi
  | cqo
  | idiv_rdi
deriving DecidableEq, Repr

/-- The instruction(s) the `switch` in `gen` (lines 229-243) emits for a
node kind.  There is no `ND_NUM` case in the switch, so an `ND_NUM` kind
reaching it emits nothing. -/
def op_instrs : NodeKind → List Instr
  | .ND_ADD => [.add_rax_rdi]
  | .ND_SUB => [.sub_rax_rdi]
  | .ND_MUL => [.imul_rax_rdi]
  | .ND_DIV => [.cqo, .idiv_rdi]
  | .ND_NUM => []

/-- `gen` (lines 217-246): post-order traversal emitting stack-machine code. -/
def gen : Node → List Instr
  | .num v => [.push_imm v]
  | .binary kind lhs rhs =>
    gen lhs ++ gen rhs ++ [.pop_rdi, .pop_rax] ++ op_instrs kind ++ [.push_rax]

/-- Reduce into the signed 64-bit range, modelling register wraparound. -/
def wrap64 (v : Int) : Int :=
  (v + 2 ^ 63) % 2 ^ 64 - 2 ^ 63

/-- Machine state for executing the emitted instructions: the three
registers the program uses plus the operand stack. -/
structure MState where
  rax : Int
  rdx : Int
  rdi : Int
  stack : List Int
deriving DecidableEq, Repr

/-- One instruction of x86-64 semantics, restricted to what the emitted
code uses.  `pop` on an empty stack and `idiv` by zero (or with a quotient
outside the signed 64-bit range) fault, giving `none`. -/
def step (i : Instr) (st : MState) : Option MState :=
  match i with
  | .push_imm v => some { st with stack := v :: st.stack }
  | .push_rax => some { st with stack := st.rax :: st.stack }
  | .pop_rdi =>
    match st.stack with
    | v :: rest => some { st with rdi := v, stack := rest }
    | [] => none
  | .pop_rax =>
    match st.stack with
    | v :: rest => some { st with rax := v, stack := rest }
    | [] => none
  | .add_rax_rdi => some { st with rax := wrap64 (st.rax + st.rdi) }
  | .sub_rax_rdi => some { st with rax := wrap64 (st.rax - st.rdi) }
  | .imul_rax_rdi => some { st with rax := wrap64 (st.rax * st.rdi) }
  | .cqo => some { st with rdx := if st.rax < 0 then -1 else 0 }
  | .idiv_rdi =>
    -- rdx:rax is the 128-bit dividend (rax read as unsigned, rdx on top)
    let dividend := st.rdx * 2 ^ 64 + st.rax % 2 ^ 64
    if st.rdi = 0 then none
    else
      let q := Int.tdiv dividend st.rdi
      if q < -(2 ^ 63) ∨ 2 ^ 63 ≤ q then none
      else some { st with rax := q, rdx := Int.tmod dividend st.rdi }

/-- Execute an instruction sequence. -/
def exec : List Instr → MState → Option MState
  | [], st => some st
  | i :: rest, st =>
    match step i st with
    | some st1 => exec rest st1
    | none => none

/-- The initial machine state at the `main:` label. -/
def init_state : MState := ⟨0, 0, 0, []⟩

/-- Run the whole emitted program for an AST: the generated body followed by
the epilogue `pop rax` (line 267); the result returned by `ret` is `rax`. -/
def run_program (node : Node) : Option Int :=
  match exec (gen node ++ [.pop_rax]) init_state with
  | some st => some st.rax
  | none => none

/-- The text of one emitted instruction line, exactly as `printf` formats it. -/
def render_instr : Instr → String
  | .push_imm v => "  push " ++ toString v ++ "\n"
  | .push_rax => "  push rax\n"
  | .pop_rdi => "  pop rdi\n"
  | .pop_rax => "  pop rax\n"
  | .add_rax_rdi => "  add rax, rdi\n"
  | .sub_rax_rdi => "  sub rax, rdi\n"
  | .imul_rax_rdi => "  imul rax, rdi\n"
  | .cqo => "  cqo\n"
  | .idiv_rdi => "  idiv rdi\n"

/-- The fixed prologue `main` prints (lines 259-261). -/
def asm_header : String :=
  ".intel_syntax noprefix\n.global main\nmain:\n"

/-- The fixed epilogue `main` prints (lines 267-268). -/
def asm_footer : String :=
  "  pop rax\n  ret\n"

/-- The complete standard-output text of a successful compilation. -/
def asm_of (node : Node) : String :=
  asm_header ++ String.join ((gen node).map render_instr) ++ asm_footer

/-- The standard-error text `error_at` prints (lines 43-54): the full input
line, then `pos` spaces, a caret, a space, the message and a newline. -/
def render_error (input : List Char) (e : CError) : List Char :=
  input ++ '\n' :: (List.replicate e.pos ' ' ++ '^' :: ' ' :: (e.msg.data ++ ['\n']))

/-- `main` (lines 248-270) on a single source argument: tokenize, parse one
expression (without checking `at_eof` afterwards), then print the assembly.
Result: (standard output, standard error, exit status).  The `fuelOut`
branches are unreachable (`tokenize_no_fuelOut`, `parse_no_fuelOut`). -/
def main_run (input : List Char) : String × List Char × Nat :=
  match tokenize0 input with
  | .err e => ("", render_error input e, 1)
  | .fuelOut => ("", [], 1)
  | .ok ts =>
    match expr (parse_fuel ts) ts with
    | .ok (node, _) => (asm_of node, [], 0)
    | .err e => ("", render_error input e, 1)
    | .fuelOut => ("", [], 1)

/-- Tokenize-then-parse, the part of `main` before any output. -/
def parse_input (input : List Char) : PResult (Node × List Token) :=
  match tokenize0 input with
  | .ok ts => expr (parse_fuel ts) ts
  | .err e => .err e
  | .fuelOut => .fuelOut

/-- A token without its source offset: kind, value and character. -/
def erase (t : Token) : TokenKind × Int × Char :=
  (t.kind, t.val, t.ch)

/-- A token list up to source offsets. -/
def eraseL (ts : List Token) : List (TokenKind × Int × Char) :=
  ts.map erase

/-- True when a string does not begin with a digit (so a digit run placed
in front of it stays maximal). -/
def noDigitHead : List Char → Bool
  | [] => true
  | c :: _ => !isdigit c

/-- Two source strings differ only in the whitespace between tokens: both
decompose into the same sequence of punctuation characters and maximal
digit runs, with arbitrary whitespace around them.  The side conditions on
`num` force the runs to be maximal on both sides, so whitespace is only
ever inserted or removed at token boundaries, never inside a number. -/
inductive WsEquiv : List Char → List Char → Prop where
  | nil : WsEquiv [] []
  | wsL (c : Char) (s1 s2 : List Char) (hc : isspace c = true)
      (h : WsEquiv s1 s2) : WsEquiv (c :: s1) s2
  | wsR (c : Char) (s1 s2 : List Char) (hc : isspace c = true)
      (h : WsEquiv s1 s2) : WsEquiv s1 (c :: s2)
  | punct (c : Char) (s1 s2 : List Char) (hc : ispunct c = true)
      (h : WsEquiv s1 s2) : WsEquiv (c :: s1) (c :: s2)
  | num (r : List Char) (s1 s2 : List Char) (hne : r ≠ [])
      (hr : ∀ c ∈ r, isdigit c = true)
      (h1 : noDigitHead s1 = true) (h2 : noDigitHead s2 = true)
      (h : WsEquiv s1 s2) : WsEquiv (r ++ s1) (r ++ s2)

/-- Parser results on offset-equivalent streams: same outcome, with the
same node and offset-equivalent rests on success, and the same message
(the offsets may differ) on error. -/
inductive RRel : PResult (Node × List Token) → PResult (Node × List Token) → Prop where
  | ok (n : Node) (r1 r2 : List Token) (h : eraseL r1 = eraseL r2) :
      RRel (.ok (n, r1)) (.ok (n, r2))
  | err (e1 e2 : CError) (h : e1.msg = e2.msg) : RRel (.err e1) (.err e2)
  | fuelOut : RRel .fuelOut .fuelOut

/-!  Basic facts: the fuel supplied by `tokenize0` and `parse_fuel` never
runs out, so the fueled model computes exactly what the C program does. -/

theorem tokenize_no_fuelOut :
    ∀ (fuel : Nat) (s : List Char) (pos : Nat), s.length < fuel →
      tokenize fuel s pos ≠ .fuelOut := by
  intro fuel
  induction fuel with
  | zero => intro s pos h; omega
  | succ f ih =>
    intro s pos h
    match s with
    | [] => simp [tokenize]
    | c :: rest =>
      simp only [tokenize]
      split
      · exact ih rest (pos + 1) (by simp at h; omega)
      · split
        · have := ih rest (pos + 1) (by simp at h; omega)
          cases hrec : tokenize f rest (pos + 1) with
          | ok ts => simp
          | err e => simp
          | fuelOut => exact absurd hrec this
        · split
          · have hlen : (rest.dropWhile isdigit).length < f := by
              have hsub : List.Sublist (rest.dropWhile isdigit) rest := List.dropWhile_sublist isdigit
              have := hsub.length_le
              simp at h; omega
            have := ih (rest.dropWhile isdigit)
              (pos + (c :: rest.takeWhile isdigit).length) hlen
            cases hrec : tokenize f (rest.dropWhile isdigit)
                (pos + (c :: rest.takeWhile isdigit).length) with
            | ok ts => simp
            | err e => simp
            | fuelOut => exact absurd hrec this
          · simp

theorem tokenize0_no_fuelOut (s : List Char) : tokenize0 s ≠ .fuelOut :=
  tokenize_no_fuelOut (s.length + 1) s 0 (Nat.lt_succ_self _)

theorem consume_true_length {op : Char} {ts ts1 : List Token}
    (h : consume op ts = (true, ts1)) : ts1.length + 1 = ts.length := by
  match ts with
  | [] => simp [consume] at h
  | t :: rest =>
    simp only [consume] at h
    split at h
    · simp at h
    · simp at h; simp [h]

theorem consume_false_eq {op : Char} {ts ts1 : List Token}
    (h : consume op ts = (false, ts1)) : ts1 = ts := by
  match ts with
  | [] => simp [consume] at h; simp [h]
  | t :: rest =>
    simp only [consume] at h
    split at h
    · simp at h; simp [h]
    · simp at h

theorem expect_ok_length {op : Char} {ts ts1 : List Token}
    (h : expect op ts = .ok ts1) : ts1.length + 1 = ts.length := by
  match ts with
  | [] => simp [expect] at h
  | t :: rest =>
    simp only [expect] at h
    split at h
    · simp at h
    · simp at h; simp [h]

theorem expect_number_ok_length {ts ts1 : List Token} {v : Int}
    (h : expect_number ts = .ok (v, ts1)) : ts1.length + 1 = ts.length := by
  match ts with
  | [] => simp [expect_number] at h
  | t :: rest =>
    simp only [expect_number] at h
    split at h
    · simp at h
    · simp at h; simp [h]

/-- Each parser function returns a suffix no longer than its input. -/
theorem parse_length_le :
    ∀ fuel : Nat,
      (∀ ts n r, expr fuel ts = .ok (n, r) → r.length ≤ ts.length) ∧
      (∀ node ts n r, expr_loop fuel node ts = .ok (n, r) → r.length ≤ ts.length) ∧
      (∀ ts n r, mul fuel ts = .ok (n, r) → r.length ≤ ts.length) ∧
      (∀ node ts n r, mul_loop fuel node ts = .ok (n, r) → r.length ≤ ts.length) ∧
      (∀ ts n r, primary fuel ts = .ok (n, r) → r.length ≤ ts.length) := by
  intro fuel
  induction fuel with
  | zero => refine ⟨?_, ?_, ?_, ?_, ?_⟩ <;> intros <;> simp_all [expr, expr_loop, mul, mul_loop, primary]
  | succ f ih =>
    obtain ⟨ihe, ihel, ihm, ihml, ihp⟩ := ih
    refine ⟨?_, ?_, ?_, ?_, ?_⟩
    · intro ts n r h
      simp only [expr] at h
      cases hm : mul f ts with
      | ok a =>
        obtain ⟨n1, ts1⟩ := a
        rw [hm] at h
        exact le_trans (ihel n1 ts1 n r h) (ihm ts n1 ts1 hm)
      | err e => rw [hm] at h; simp at h
      | fuelOut => rw [hm] at h; simp at h
    · intro node ts n r h
      simp only [expr_loop] at h
      cases hc : consume '+' ts with
      | mk b ts1 =>
        rw [hc] at h
        cases b with
        | true =>
          simp only at h
          cases hm : mul f ts1 with
          | ok a =>
            obtain ⟨rhs, ts2⟩ := a
            rw [hm] at h
            have h1 := consume_true_length hc
            have h2 := ihm ts1 rhs ts2 hm
            have h3 := ihel _ ts2 n r h
            omega
          | err e => rw [hm] at h; simp at h
          | fuelOut => rw [hm] at h; simp at h
        | false =>
          simp only at h
          cases hc2 : consume '-' ts with
          | mk b2 ts2 =>
            rw [hc2] at h
            cases b2 with
            | true =>
              simp only at h
              cases hm : mul f ts2 with
              | ok a =>
                obtain ⟨rhs, ts3⟩ := a
                rw [hm] at h
                have h1 := consume_true_length hc2
                have h2 := ihm ts2 rhs ts3 hm
                have h3 := ihel _ ts3 n r h
                omega
              | err e => rw [hm] at h; simp at h
              | fuelOut => rw [hm] at h; simp at h
            | false =>
              simp at h
              obtain ⟨-, rfl⟩ := h
              exact le_rfl
    · intro ts n r h
      simp only [mul] at h
      cases hp : primary f ts with
      | ok a =>
        obtain ⟨n1, ts1⟩ := a
        rw [hp] at h
        exact le_trans (ihml n1 ts1 n r h) (ihp ts n1 ts1 hp)
      | err e => rw [hp] at h; simp at h
      | fuelOut => rw [hp] at h; simp at h
    · intro node ts n r h
      simp only [mul_loop] at h
      cases hc : consume '*' ts with
      | mk b ts1 =>
        rw [hc] at h
        cases b with
        | true =>
          simp only at h
          cases hm : mul f ts1 with
          | ok a =>
            obtain ⟨rhs, ts2⟩ := a
            rw [hm] at h
            have h1 := consume_true_length hc
            have h2 := ihm ts1 rhs ts2 hm
            have h3 := ihml _ ts2 n r h
            omega
          | err e => rw [hm] at h; simp at h
          | fuelOut => rw [hm] at h; simp at h
        | false =>
          simp only at h
          cases hc2 : consume '/' ts with
          | mk b2 ts2 =>
            rw [hc2] at h
            cases b2 with
            | true =>
              simp only at h
              cases hm : mul f ts2 with
              | ok a =>
                obtain ⟨rhs, ts3⟩ := a
                rw [hm] at h
                have h1 := consume_true_length hc2
                have h2 := ihm ts2 rhs ts3 hm
                have h3 := ihml _ ts3 n r h
                omega
              | err e => rw [hm] at h; simp at h
              | fuelOut => rw [hm] at h; simp at h
            | false =>
              simp at h
              obtain ⟨-, rfl⟩ := h
              exact le_rfl
    · intro ts n r h
      simp only [primary] at h
      cases hc : consume '(' ts with
      | mk b ts1 =>
        rw [hc] at h
        cases b with
        | true =>
          simp only at h
          cases he : expr f ts1 with
          | ok a =>
            obtain ⟨n1, ts2⟩ := a
            rw [he] at h
            simp only at h
            cases hx : expect ')' ts2 with
            | ok ts3 =>
              rw [hx] at h
              simp at h
              have h1 := consume_true_length hc
              have h2 := ihe ts1 n1 ts2 he
              have h3 := expect_ok_length hx
              obtain ⟨_, hr⟩ := h
              subst hr
              omega
            | error e => rw [hx] at h; simp at h
          | err e => rw [he] at h; simp at h
          | fuelOut => rw [he] at h; simp at h
        | false =>
          simp only at h
          cases hx : expect_number ts with
          | ok a =>
            obtain ⟨v, ts1'⟩ := a
            rw [hx] at h
            simp at h
            have h1 := expect_number_ok_length hx
            obtain ⟨_, hr⟩ := h
            subst hr
            omega
          | error e => rw [hx] at h; simp at h

/-- The fuel budget `5 * tokens + rank` never runs out: every parser call
either consumes a token or moves down the call order
`expr > expr_loop > mul > mul_loop > primary`. -/
theorem parse_no_fuelOut :
    ∀ fuel : Nat,
      (∀ ts : List Token, 5 * ts.length + 4 < fuel → expr fuel ts ≠ .fuelOut) ∧
      (∀ (node : Node) (ts : List Token), 5 * ts.length + 3 < fuel →
        expr_loop fuel node ts ≠ .fuelOut) ∧
      (∀ ts : List Token, 5 * ts.length + 2 < fuel → mul fuel ts ≠ .fuelOut) ∧
      (∀ (node : Node) (ts : List Token), 5 * ts.length + 1 < fuel →
        mul_loop fuel node ts ≠ .fuelOut) ∧
      (∀ ts : List Token, 5 * ts.length < fuel → primary fuel ts ≠ .fuelOut) := by
  intro fuel
  induction fuel with
  | zero => refine ⟨?_, ?_, ?_, ?_, ?_⟩ <;> intros <;> omega
  | succ f ih =>
    obtain ⟨ihe, ihel, ihm, ihml, ihp⟩ := ih
    have hle := parse_length_le f
    refine ⟨?_, ?_, ?_, ?_, ?_⟩
    · intro ts hf
      simp only [expr]
      cases hm : mul f ts with
      | ok a =>
        obtain ⟨n1, ts1⟩ := a
        have h1 := hle.2.2.1 ts n1 ts1 hm
        exact ihel n1 ts1 (by omega)
      | err e => simp
      | fuelOut => exact absurd hm (ihm ts (by omega))
    · intro node ts hf
      simp only [expr_loop]
      cases hc : consume '+' ts with
      | mk b ts1 =>
        cases b with
        | true =>
          have h0 := consume_true_length hc
          simp only
          cases hm : mul f ts1 with
          | ok a =>
            obtain ⟨rhs, ts2⟩ := a
            have h1 := hle.2.2.1 ts1 rhs ts2 hm
            exact ihel _ ts2 (by omega)
          | err e => simp
          | fuelOut => exact absurd hm (ihm ts1 (by omega))
        | false =>
          simp only
          cases hc2 : consume '-' ts with
          | mk b2 ts2 =>
            cases b2 with
            | true =>
              have h0 := consume_true_length hc2
              simp only
              cases hm : mul f ts2 with
              | ok a =>
                obtain ⟨rhs, ts3⟩ := a
                have h1 := hle.2.2.1 ts2 rhs ts3 hm
                exact ihel _ ts3 (by omega)
              | err e => simp
              | fuelOut => exact absurd hm (ihm ts2 (by omega))
            | false => simp
    · intro ts hf
      simp only [mul]
      cases hp : primary f ts with
      | ok a =>
        obtain ⟨n1, ts1⟩ := a
        have h1 := hle.2.2.2.2 ts n1 ts1 hp
        exact ihml n1 ts1 (by omega)
      | err e => simp
      | fuelOut => exact absurd hp (ihp ts (by omega))
    · intro node ts hf
      simp only [mul_loop]
      cases hc : consume '*' ts with
      | mk b ts1 =>
        cases b with
        | true =>
          have h0 := consume_true_length hc
          simp only
          cases hm : mul f ts1 with
          | ok a =>
            obtain ⟨rhs, ts2⟩ := a
            have h1 := hle.2.2.1 ts1 rhs ts2 hm
            exact ihml _ ts2 (by omega)
          | err e => simp
          | fuelOut => exact absurd hm (ihm ts1 (by omega))
        | false =>
          simp only
          cases hc2 : consume '/' ts with
          | mk b2 ts2 =>
            cases b2 with
            | true =>
              have h0 := consume_true_length hc2
              simp only
              cases hm : mul f ts2 with
              | ok a =>
                obtain ⟨rhs, ts3⟩ := a
                have h1 := hle.2.2.1 ts2 rhs ts3 hm
                exact ihml _ ts3 (by omega)
              | err e => simp
              | fuelOut => exact absurd hm (ihm ts2 (by omega))
            | false => simp
    · intro ts hf
      simp only [primary]
      cases hc : consume '(' ts with
      | mk b ts1 =>
        cases b with
        | true =>
          have h0 := consume_true_length hc
          simp only
          cases he : expr f ts1 with
          | ok a =>
            obtain ⟨n1, ts2⟩ := a
            simp only
            cases hx : expect ')' ts2 with
            | ok ts3 => simp
            | error e => simp
          | err e => simp
          | fuelOut => exact absurd he (ihe ts1 (by omega))
        | false =>
          simp only
          cases hx : expect_number ts with
          | ok a => obtain ⟨v, ts1'⟩ := a; simp
          | error e => simp

/-- Parsing with the fuel `main` supplies never runs out of fuel. -/
theorem expr_parse_fuel_no_fuelOut (ts : List Token) :
    expr (parse_fuel ts) ts ≠ .fuelOut :=
  (parse_no_fuelOut (parse_fuel ts)).1 ts (by simp [parse_fuel])

/-!  The claims. -/

/-- C1: the claim says the emitted program computes every `N1 op1 N2 ...`
expression under standard semantics, with left-to-right evaluation at equal
precedence.  The precedence examples of the claim do hold (`1+2*3` → 7 and
`(1+2)*3` → 9), but the general statement is false: because the loop of
`mul` parses its right operand with a recursive call to `mul` (line 194 of
the source) instead of `primary` as its own grammar comment prescribes,
same-precedence chains of `*` and `/` associate to the RIGHT.  On the
well-formed input `8/4/2` the compiler parses `8/(4/2)` and the emitted
program computes 4, while standard left-to-right semantics gives
`(8/4)/2 = 1`. -/
theorem C1_division_chain_breaks_standard_semantics :
    parse_input (String.toList "1+2*3") =
      .ok (Node.binary .ND_ADD (Node.num 1)
            (Node.binary .ND_MUL (Node.num 2) (Node.num 3)),
        [⟨.TK_EOF, 0, 5, '\x00'⟩]) ∧
    run_program (Node.binary .ND_ADD (Node.num 1)
      (Node.binary .ND_MUL (Node.num 2) (Node.num 3))) = some 7 ∧
    parse_input (String.toList "(1+2)*3") =
      .ok (Node.binary .ND_MUL
            (Node.binary .ND_ADD (Node.num 1) (Node.num 2)) (Node.num 3),
        [⟨.TK_EOF, 0, 7, '\x00'⟩]) ∧
    run_program (Node.binary .ND_MUL
      (Node.binary .ND_ADD (Node.num 1) (Node.num 2)) (Node.num 3)) = some 9 ∧
    parse_input (String.toList "8/4/2") =
      .ok (Node.binary .ND_DIV (Node.num 8)
            (Node.binary .ND_DIV (Node.num 4) (Node.num 2)),
        [⟨.TK_EOF, 0, 5, '\x00'⟩]) ∧
    run_program (Node.binary .ND_DIV (Node.num 8)
      (Node.binary .ND_DIV (Node.num 4) (Node.num 2))) = some 4 ∧
    Int.tdiv (Int.tdiv 8 4) 2 = 1 ∧ (4 : Int) ≠ 1 := by
  decide

/-- C2: the claim says both precedence levels fold left.  The `+ -` level
does: `10-2-3` parses as `(10-2)-3` and computes 5.  The `* /` level does
not: the loop of `mul` builds the right operand with a recursive call to
`mul` (source lines 194/196), contradicting its own grammar comment
`mul = primary ("*" primary | "/" primary)*`, so `20/4/5` parses as
`20/(4/5)`; since `4/5 = 0`, the generated program divides by zero and
faults instead of computing the claimed `(20/4)/5 = 1`. -/
theorem C2_mul_level_is_right_associative :
    parse_input (String.toList "10-2-3") =
      .ok (Node.binary .ND_SUB
            (Node.binary .ND_SUB (Node.num 10) (Node.num 2)) (Node.num 3),
        [⟨.TK_EOF, 0, 6, '\x00'⟩]) ∧
    run_program (Node.binary .ND_SUB
      (Node.binary .ND_SUB (Node.num 10) (Node.num 2)) (Node.num 3)) = some 5 ∧
    parse_input (String.toList "20/4/5") =
      .ok (Node.binary .ND_DIV (Node.num 20)
            (Node.binary .ND_DIV (Node.num 4) (Node.num 5)),
        [⟨.TK_EOF, 0, 6, '\x00'⟩]) ∧
    Node.binary .ND_DIV (Node.num 20)
        (Node.binary .ND_DIV (Node.num 4) (Node.num 5)) ≠
      Node.binary .ND_DIV
        (Node.binary .ND_DIV (Node.num 20) (Node.num 4)) (Node.num 5) ∧
    run_program (Node.binary .ND_DIV (Node.num 20)
      (Node.binary .ND_DIV (Node.num 4) (Node.num 5))) = none ∧
    Int.tdiv (Int.tdiv 20 4) 5 = 1 := by
  decide

/-- C3: the claim says a literal value reaches code generation unchanged in
a signed type of at least 64 bits.  The token does store the full `long`
value, but `new_num` takes a C `int` parameter (source line 163), so the
call `new_num(expect_number())` narrows the value to 32 bits: for the input
`4294967296` (= 2^32, well within a signed 64-bit integer) the AST node
stores 0, not 4294967296. -/
theorem C3_literal_narrowed_to_32_bits :
    tokenize0 (String.toList "4294967296") =
      .ok [⟨.TK_NUM, 4294967296, 0, '4'⟩, ⟨.TK_EOF, 0, 10, '\x00'⟩] ∧
    parse_input (String.toList "4294967296") =
      .ok (Node.num 0, [⟨.TK_EOF, 0, 10, '\x00'⟩]) ∧
    int_of_long 4294967296 = 0 ∧ ((0 : Int) ≠ 4294967296) := by
  decide

/-- C4 counterexample: the claim says `parse` fails with a `SyntaxError`
whenever tokens remain before `EndOfInput`, e.g. that `1+2)` is rejected.
In fact `main` never checks `at_eof` after `expr` returns: `1+2)` compiles
successfully (exit status 0) to the assembly of `1+2`, with the `)` token
still unconsumed in the remaining stream. -/
theorem C4_counterexample_trailing_tokens_accepted :
    main_run (String.toList "1+2)") =
      (asm_of (Node.binary .ND_ADD (Node.num 1) (Node.num 2)), [], 0) ∧
    parse_input (String.toList "1+2)") =
      .ok (Node.binary .ND_ADD (Node.num 1) (Node.num 2),
        [⟨.TK_RESERVED, 0, 3, ')'⟩, ⟨.TK_EOF, 0, 4, '\x00'⟩]) ∧
    at_eof [⟨.TK_RESERVED, 0, 3, ')'⟩, ⟨.TK_EOF, 0, 4, '\x00'⟩] = false := by
  decide

/-- C4 (amended): `parse` parses one top-level expression from the front of
the stream and leaves any trailing tokens unconsumed; `main` emits the
assembly of that expression regardless of what remains before `EndOfInput`
(trailing tokens are silently ignored, never reported). -/
theorem C4_trailing_tokens_ignored :
    ∀ (input : List Char) (ts : List Token) (node : Node) (rest : List Token),
      tokenize0 input = .ok ts →
      expr (parse_fuel ts) ts = .ok (node, rest) →
      main_run input = (asm_of node, [], 0) := by
  intro input ts node rest h1 h2
  simp [main_run, h1, h2]

/-- Witness for C4 (amended) at the concrete input `1+2)`, whose remaining
stream still holds the unconsumed `)`. -/
theorem C4_trailing_tokens_ignored_witness :
    main_run (String.toList "1+2)") =
      (asm_of (Node.binary .ND_ADD (Node.num 1) (Node.num 2)), [], 0) :=
  C4_trailing_tokens_ignored (String.toList "1+2)")
    [⟨.TK_NUM, 1, 0, '1'⟩, ⟨.TK_RESERVED, 0, 1, '+'⟩, ⟨.TK_NUM, 2, 2, '2'⟩,
      ⟨.TK_RESERVED, 0, 3, ')'⟩, ⟨.TK_EOF, 0, 4, '\x00'⟩]
    (Node.binary .ND_ADD (Node.num 1) (Node.num 2))
    [⟨.TK_RESERVED, 0, 3, ')'⟩, ⟨.TK_EOF, 0, 4, '\x00'⟩]
    (by decide) (by decide)

/-- C7: `consume` is a non-fatal conditional advance: on a `TK_RESERVED`
token whose character equals the expected one it returns true and advances
the cursor exactly one token; otherwise it returns false and leaves the
stream exactly as it was. -/
theorem C7_consume_semantics :
    ∀ (op : Char) (t : Token) (rest : List Token),
      (t.kind = .TK_RESERVED ∧ t.ch = op → consume op (t :: rest) = (true, rest)) ∧
      (¬(t.kind = .TK_RESERVED ∧ t.ch = op) →
        consume op (t :: rest) = (false, t :: rest)) := by
  intro op t rest
  constructor
  · rintro ⟨h1, h2⟩
    simp [consume, h1, h2]
  · intro h
    rw [Classical.not_and_iff_or_not_not] at h
    simp only [consume]
    rw [if_pos h]

/-- Witness for C7: a matching punctuator is consumed, a number is not. -/
theorem C7_consume_semantics_witness :
    consume '+' [⟨.TK_RESERVED, 0, 1, '+'⟩] = (true, []) ∧
    consume '+' [⟨.TK_NUM, 1, 0, '1'⟩] = (false, [⟨.TK_NUM, 1, 0, '1'⟩]) :=
  ⟨(C7_consume_semantics '+' ⟨.TK_RESERVED, 0, 1, '+'⟩ []).1 ⟨rfl, rfl⟩,
    (C7_consume_semantics '+' ⟨.TK_NUM, 1, 0, '1'⟩ []).2 (by decide)⟩

theorem exec_append (a b : List Instr) (st : MState) :
    exec (a ++ b) st = (exec a st).bind (exec b) := by
  induction a generalizing st with
  | nil => simp [exec]
  | cons i rest ih =>
    simp only [List.cons_append, exec]
    cases step i st with
    | none => simp
    | some st1 => simp [ih]

/-- The net stack effect of any generated subtree is exactly one push. -/
theorem gen_net_stack :
    ∀ (node : Node) (st st1 : MState),
      exec (gen node) st = some st1 → ∃ v, st1.stack = v :: st.stack := by
  intro node
  induction node with
  | num v =>
    intro st st1 h
    simp only [gen, exec, step, Option.some.injEq] at h
    exact ⟨v, by rw [← h]⟩
  | binary kind lhs rhs ihl ihr =>
    intro st st1 h
    simp only [gen] at h
    rw [exec_append, exec_append, exec_append, exec_append] at h
    cases hl : exec (gen lhs) st with
    | none => rw [hl] at h; simp at h
    | some stl =>
      rw [hl] at h
      simp only [Option.some_bind] at h
      obtain ⟨v1, hv1⟩ := ihl st stl hl
      cases hr : exec (gen rhs) stl with
      | none => rw [hr] at h; simp at h
      | some str2 =>
        rw [hr] at h
        simp only [Option.some_bind] at h
        obtain ⟨v2, hv2⟩ := ihr stl str2 hr
        -- pop rdi, pop rax from the stack v2 :: v1 :: st.stack
        have hpops : exec [Instr.pop_rdi, Instr.pop_rax] str2 =
            some { str2 with rdi := v2, rax := v1, stack := st.stack } := by
          simp [exec, step, hv2, hv1]
        rw [hpops] at h
        simp only [Option.some_bind] at h
        cases kind with
        | ND_ADD =>
          simp only [op_instrs, exec, step, Option.some_bind, Option.some.injEq] at h
          exact ⟨_, by rw [← h]⟩
        | ND_SUB =>
          simp only [op_instrs, exec, step, Option.some_bind, Option.some.injEq] at h
          exact ⟨_, by rw [← h]⟩
        | ND_MUL =>
          simp only [op_instrs, exec, step, Option.some_bind, Option.some.injEq] at h
          exact ⟨_, by rw [← h]⟩
        | ND_NUM =>
          simp only [op_instrs, exec, step, Option.some_bind, Option.some.injEq] at h
          exact ⟨_, by rw [← h]⟩
        | ND_DIV =>
          simp only [op_instrs, exec, step, Option.some_bind] at h
          split at h
          · rename_i x st2 heq
            split at heq
            · simp at heq
            · split at heq
              · simp at heq
                obtain ⟨-, heq2⟩ := heq
                subst heq2
                simp only [Option.some_bind, Option.some.injEq] at h
                exact ⟨_, by rw [← h]⟩
              · simp at heq
                obtain ⟨-, heq2⟩ := heq
                subst heq2
                simp only [Option.some_bind, Option.some.injEq] at h
                exact ⟨_, by rw [← h]⟩
          · simp at h

/-- C9: every subtree's code has a net stack effect of exactly +1 slot.
Structurally, a literal emits a single push; a binary node emits the code
of its left child, then its right child, then `pop rdi`, `pop rax`, the
operator instructions (with `Div` being `cqo` then `idiv`), and `push rax`.
Whenever execution of a subtree's code completes, the resulting operand
stack is the original one with exactly one new value on top — so after the
whole tree exactly one value remains for the epilogue to pop into `rax`. -/
theorem C9_gen_stack_effect :
    (∀ v : Int, gen (Node.num v) = [.push_imm v]) ∧
    (∀ (kind : NodeKind) (lhs rhs : Node),
      gen (Node.binary kind lhs rhs) =
        gen lhs ++ gen rhs ++ [.pop_rdi, .pop_rax] ++ op_instrs kind ++ [.push_rax]) ∧
    op_instrs .ND_DIV = [.cqo, .idiv_rdi] ∧
    (∀ (node : Node) (st st1 : MState),
      exec (gen node) st = some st1 → ∃ v, st1.stack = v :: st.stack) :=
  ⟨fun _ => rfl, fun _ _ _ => rfl, rfl, gen_net_stack⟩

/-- Witness for C9: executing the code of `1+2` from the empty stack leaves
exactly the single value 3 on it. -/
theorem C9_gen_stack_effect_witness :
    ∃ v : Int, (MState.mk 3 0 2 [3]).stack = v :: init_state.stack :=
  C9_gen_stack_effect.2.2.2 (Node.binary .ND_ADD (Node.num 1) (Node.num 2))
    init_state (MState.mk 3 0 2 [3]) (by decide)

/-- Tokenizing a run of whitespace yields only the `TK_EOF` token, placed at
the offset past the run. -/
theorem tokenize_all_ws :
    ∀ (s : List Char), (∀ c ∈ s, isspace c = true) → ∀ pos : Nat,
      tokenize (s.length + 1) s pos = .ok [⟨.TK_EOF, 0, pos + s.length, '\x00'⟩] := by
  intro s
  induction s with
  | nil => intro h pos; simp [tokenize]
  | cons c rest ih =>
    intro h pos
    have hc : isspace c = true := h c (by simp)
    simp only [List.length_cons, tokenize, hc, if_pos]
    rw [ih (fun x hx => h x (List.mem_cons_of_mem _ hx)) (pos + 1)]
    have : pos + 1 + rest.length = pos + (rest.length + 1) := by omega
    rw [this]

/-- C10: an empty or all-whitespace source tokenizes to just `EndOfInput`,
and parsing then fails fatally with `expected a number` at the end of the
input (offset = length of the input): no assembly is emitted and the exit
status is nonzero.  The empty expression is never accepted. -/
theorem C10_empty_input_rejected :
    ∀ s : List Char, (∀ c ∈ s, isspace c = true) →
      tokenize0 s = .ok [⟨.TK_EOF, 0, s.length, '\x00'⟩] ∧
      main_run s = ("", render_error s ⟨s.length, "expected a number"⟩, 1) := by
  intro s h
  have ht : tokenize0 s = .ok [⟨.TK_EOF, 0, s.length, '\x00'⟩] := by
    have := tokenize_all_ws s h 0
    rwa [Nat.zero_add] at this
  refine ⟨ht, ?_⟩
  simp only [main_run, tokenize0] at *
  rw [ht]
  rfl

/-- Witness for C10 at the all-whitespace input `" "`. -/
theorem C10_empty_input_rejected_witness :
    tokenize0 (String.toList " ") = .ok [⟨.TK_EOF, 0, 1, '\x00'⟩] ∧
    main_run (String.toList " ") =
      ("", render_error (String.toList " ") ⟨1, "expected a number"⟩, 1) :=
  C10_empty_input_rejected (String.toList " ") (by decide)

/-- C6: on every lexical error (from `tokenize`) or syntax error (from the
parser), the process writes nothing to standard output — both phases run
before the first assembly `printf` in `main` — and writes to standard error
the full original source line, then a line whose caret sits exactly under
the offending offset (`e.pos` spaces, then `^`), then the message, exiting
with the nonzero status 1. -/
theorem C6_error_output_format :
    ∀ (input : List Char) (e : CError),
      (tokenize0 input = .err e ∨
        ∃ ts, tokenize0 input = .ok ts ∧ expr (parse_fuel ts) ts = .err e) →
      main_run input = ("", render_error input e, 1) ∧
      (render_error input e).take (input.length + 1) = input ++ ['\n'] ∧
      (render_error input e)[input.length + 1 + e.pos]? = some '^' := by
  intro input e h
  refine ⟨?_, ?_, ?_⟩
  · rcases h with h | ⟨ts, h1, h2⟩
    · simp [main_run, h]
    · simp [main_run, h1, h2]
  · simp only [render_error]
    rw [List.take_append 1]
    simp
  · simp only [render_error]
    rw [(by omega : input.length + 1 + e.pos = input.length + (1 + e.pos))]
    rw [List.getElem?_append_right (by omega)]
    simp only [Nat.add_sub_cancel_left]
    rw [(by omega : 1 + e.pos = e.pos + 1)]
    simp only [List.getElem?_cons_succ]
    rw [List.getElem?_append_right (by simp)]
    simp

/-- Witness for C6: the syntax error of the input `1+` is reported at
offset 2 with the caret under the end of the line. -/
theorem C6_error_output_format_witness :
    main_run (String.toList "1+") =
      ("", render_error (String.toList "1+") ⟨2, "expected a number"⟩, 1) ∧
    (render_error (String.toList "1+") ⟨2, "expected a number"⟩).take 3 =
      String.toList "1+" ++ ['\n'] ∧
    (render_error (String.toList "1+") ⟨2, "expected a number"⟩)[5]? = some '^' :=
  C6_error_output_format (String.toList "1+") ⟨2, "expected a number"⟩
    (Or.inr ⟨[⟨.TK_NUM, 1, 0, '1'⟩, ⟨.TK_RESERVED, 0, 1, '+'⟩, ⟨.TK_EOF, 0, 2, '\x00'⟩],
      by decide, by decide⟩)

theorem ispunct_not_isspace {c : Char} (h : ispunct c = true) : isspace c = false := by
  simp only [ispunct, Bool.and_eq_true, decide_eq_true_eq] at h
  obtain ⟨⟨h1, -⟩, -⟩ := h
  simp only [isspace, decide_eq_false_iff_not]
  omega

theorem isdigit_not_isspace {c : Char} (h : isdigit c = true) : isspace c = false := by
  simp only [isdigit, decide_eq_true_eq] at h
  simp only [isspace, decide_eq_false_iff_not]
  omega

theorem isdigit_not_ispunct {c : Char} (h : isdigit c = true) : ispunct c = false := by
  simp [ispunct, h]

/-- Every successful tokenization ends in exactly one `TK_EOF`, which is
the last token. -/
theorem tokenize_ok_eof :
    ∀ (fuel : Nat) (s : List Char) (pos : Nat) (ts : List Token),
      tokenize fuel s pos = .ok ts →
      ts ≠ [] ∧ (ts.map Token.kind).getLast? = some .TK_EOF ∧
        (ts.map Token.kind).count .TK_EOF = 1 := by
  intro fuel
  induction fuel with
  | zero => intro s pos ts h; simp [tokenize] at h
  | succ f ih =>
    intro s pos ts h
    match s with
    | [] =>
      simp only [tokenize, PResult.ok.injEq] at h
      subst h
      refine ⟨by simp, by simp, by simp⟩
    | c :: rest =>
      simp only [tokenize] at h
      split at h
      · exact ih rest (pos + 1) ts h
      · split at h
        · cases hrec : tokenize f rest (pos + 1) with
          | ok ts1 =>
            rw [hrec] at h
            simp only [PResult.ok.injEq] at h
            subst h
            obtain ⟨hne, hlast, hcount⟩ := ih rest (pos + 1) ts1 hrec
            obtain ⟨t0, ts2, rfl⟩ := List.exists_cons_of_ne_nil hne
            refine ⟨by simp, ?_, ?_⟩
            · simpa [List.getLast?_cons_cons] using hlast
            · simpa [List.count_cons] using hcount
          | err e => rw [hrec] at h; simp at h
          | fuelOut => rw [hrec] at h; simp at h
        · split at h
          · cases hrec : tokenize f (rest.dropWhile isdigit)
                (pos + (c :: rest.takeWhile isdigit).length) with
            | ok ts1 =>
              rw [hrec] at h
              simp only [PResult.ok.injEq] at h
              subst h
              obtain ⟨hne, hlast, hcount⟩ := ih _ _ ts1 hrec
              obtain ⟨t0, ts2, rfl⟩ := List.exists_cons_of_ne_nil hne
              refine ⟨by simp, ?_, ?_⟩
              · simpa [List.getLast?_cons_cons] using hlast
              · simpa [List.count_cons] using hcount
            | err e => rw [hrec] at h; simp at h
            | fuelOut => rw [hrec] at h; simp at h
          · simp at h

/-- C5: tokenization, when it succeeds, returns a finite stream ending in
the unique `TK_EOF` token (exactly one `TK_EOF`, always last); a whitespace
character produces no token, a punctuation character produces exactly one
single-character `TK_RESERVED` token, and a digit starts a maximal digit
run producing exactly one `TK_NUM` token whose scan continues past the
whole run. -/
theorem C5_token_stream_invariants :
    (∀ (s : List Char) (ts : List Token), tokenize0 s = .ok ts →
      ts ≠ [] ∧ (ts.map Token.kind).getLast? = some .TK_EOF ∧
        (ts.map Token.kind).count .TK_EOF = 1) ∧
    (∀ (fuel : Nat) (c : Char) (s : List Char) (pos : Nat), isspace c = true →
      tokenize (fuel + 1) (c :: s) pos = tokenize fuel s (pos + 1)) ∧
    (∀ (fuel : Nat) (c : Char) (s : List Char) (pos : Nat) (ts : List Token),
      ispunct c = true →
      (tokenize (fuel + 1) (c :: s) pos = .ok (⟨.TK_RESERVED, 0, pos, c⟩ :: ts) ↔
        tokenize fuel s (pos + 1) = .ok ts)) ∧
    (∀ (fuel : Nat) (c : Char) (s : List Char) (pos : Nat) (ts : List Token),
      isdigit c = true →
      (tokenize (fuel + 1) (c :: s) pos =
          .ok (⟨.TK_NUM, strtol_val (c :: s.takeWhile isdigit), pos, c⟩ :: ts) ↔
        tokenize fuel (s.dropWhile isdigit)
          (pos + (c :: s.takeWhile isdigit).length) = .ok ts)) := by
  refine ⟨fun s ts h => tokenize_ok_eof (s.length + 1) s 0 ts h, ?_, ?_, ?_⟩
  · intro fuel c s pos hc
    simp [tokenize, hc]
  · intro fuel c s pos ts hc
    simp only [tokenize, ispunct_not_isspace hc, hc, Bool.false_eq_true, if_false, if_true]
    cases hrec : tokenize fuel s (pos + 1) with
    | ok ts1 => simp
    | err e => simp
    | fuelOut => simp
  · intro fuel c s pos ts hc
    simp only [tokenize, isdigit_not_isspace hc, isdigit_not_ispunct hc, hc,
      Bool.false_eq_true, if_false, if_true]
    cases hrec : tokenize fuel (s.dropWhile isdigit)
        (pos + (c :: s.takeWhile isdigit).length) with
    | ok ts1 => simp
    | err e => simp
    | fuelOut => simp

/-- Witness for C5 on the input `1 +23`: the stream is number, punctuator,
number, then the unique final `TK_EOF`. -/
theorem C5_token_stream_invariants_witness :
    [⟨.TK_NUM, 1, 0, '1'⟩, ⟨.TK_RESERVED, 0, 2, '+'⟩, ⟨.TK_NUM, 23, 3, '2'⟩,
        (⟨.TK_EOF, 0, 5, '\x00'⟩ : Token)] ≠ [] ∧
    (([⟨.TK_NUM, 1, 0, '1'⟩, ⟨.TK_RESERVED, 0, 2, '+'⟩, ⟨.TK_NUM, 23, 3, '2'⟩,
        (⟨.TK_EOF, 0, 5, '\x00'⟩ : Token)].map Token.kind).getLast? = some .TK_EOF) ∧
    (([⟨.TK_NUM, 1, 0, '1'⟩, ⟨.TK_RESERVED, 0, 2, '+'⟩, ⟨.TK_NUM, 23, 3, '2'⟩,
        (⟨.TK_EOF, 0, 5, '\x00'⟩ : Token)].map Token.kind).count .TK_EOF = 1) :=
  C5_token_stream_invariants.1 (String.toList "1 +23")
    [⟨.TK_NUM, 1, 0, '1'⟩, ⟨.TK_RESERVED, 0, 2, '+'⟩, ⟨.TK_NUM, 23, 3, '2'⟩,
      ⟨.TK_EOF, 0, 5, '\x00'⟩] (by decide)

/-!  Machinery for C8: whitespace between tokens changes neither the erased
token stream nor the emitted assembly. -/

theorem takeWhile_dropWhile_append (p : Char → Bool) :
    ∀ (l s : List Char), (∀ c ∈ l, p c = true) →
      (∀ c, s.head? = some c → p c = false) →
      (l ++ s).takeWhile p = l ∧ (l ++ s).dropWhile p = s := by
  intro l
  induction l with
  | nil =>
    intro s hl hs
    match s with
    | [] => simp
    | c :: s1 =>
      have := hs c rfl
      simp [List.takeWhile_cons, List.dropWhile_cons, this]
  | cons c l1 ih =>
    intro s hl hs
    have hc : p c = true := hl c (by simp)
    obtain ⟨h1, h2⟩ := ih s (fun x hx => hl x (List.mem_cons_of_mem _ hx)) hs
    simp [List.takeWhile_cons, List.dropWhile_cons, hc, h1, h2]

theorem eraseL_cons (t : Token) (ts : List Token) :
    eraseL (t :: ts) = erase t :: eraseL ts := rfl

theorem tokenize_cons_ws {c : Char} (hc : isspace c = true)
    (fuel : Nat) (s : List Char) (pos : Nat) :
    tokenize (fuel + 1) (c :: s) pos = tokenize fuel s (pos + 1) := by
  simp [tokenize, hc]

theorem tokenize_cons_punct_ok {c : Char} (hc : ispunct c = true)
    {fuel : Nat} {s : List Char} {pos : Nat} {ts : List Token}
    (h : tokenize fuel s (pos + 1) = .ok ts) :
    tokenize (fuel + 1) (c :: s) pos = .ok (⟨.TK_RESERVED, 0, pos, c⟩ :: ts) := by
  simp only [tokenize, ispunct_not_isspace hc, hc, Bool.false_eq_true, if_false, if_true, h]

theorem noDigitHead_head {s : List Char} (hs : noDigitHead s = true) :
    ∀ c, s.head? = some c → isdigit c = false := by
  intro c hc
  match s with
  | [] => simp at hc
  | x :: s1 =>
    simp at hc
    subst hc
    simpa [noDigitHead] using hs

theorem tokenize_digit_run_ok {c : Char} {r s : List Char}
    (hc : isdigit c = true) (hr : ∀ x ∈ r, isdigit x = true)
    (hs : noDigitHead s = true) {fuel : Nat} {pos : Nat} {ts : List Token}
    (h : tokenize fuel s (pos + (c :: r).length) = .ok ts) :
    tokenize (fuel + 1) ((c :: r) ++ s) pos =
      .ok (⟨.TK_NUM, strtol_val (c :: r), pos, c⟩ :: ts) := by
  obtain ⟨htake, hdrop⟩ :=
    takeWhile_dropWhile_append isdigit r s hr (noDigitHead_head hs)
  simp only [List.cons_append, tokenize, isdigit_not_isspace hc, isdigit_not_ispunct hc,
    hc, Bool.false_eq_true, if_false, if_true, List.append_eq, htake, hdrop, h]

/-- Tokenizing whitespace-equivalent inputs (at any positions, with any
sufficient fuel) succeeds on both and yields offset-equivalent streams. -/
theorem tokenize_wsEquiv {s1 s2 : List Char} (hws : WsEquiv s1 s2) :
    ∀ (f1 f2 p1 p2 : Nat), s1.length < f1 → s2.length < f2 →
      ∃ ts1 ts2, tokenize f1 s1 p1 = .ok ts1 ∧ tokenize f2 s2 p2 = .ok ts2 ∧
        eraseL ts1 = eraseL ts2 := by
  induction hws with
  | nil =>
    intro f1 f2 p1 p2 h1 h2
    obtain ⟨g1, rfl⟩ : ∃ g, f1 = g + 1 := ⟨f1 - 1, by omega⟩
    obtain ⟨g2, rfl⟩ : ∃ g, f2 = g + 1 := ⟨f2 - 1, by omega⟩
    exact ⟨[⟨.TK_EOF, 0, p1, '\x00'⟩], [⟨.TK_EOF, 0, p2, '\x00'⟩], rfl, rfl, rfl⟩
  | wsL c s1 s2 hc _ ih =>
    intro f1 f2 p1 p2 h1 h2
    obtain ⟨g1, rfl⟩ : ∃ g, f1 = g + 1 := ⟨f1 - 1, by omega⟩
    rw [tokenize_cons_ws hc]
    exact ih g1 f2 (p1 + 1) p2 (by simp at h1; omega) h2
  | wsR c s1 s2 hc _ ih =>
    intro f1 f2 p1 p2 h1 h2
    obtain ⟨g2, rfl⟩ : ∃ g, f2 = g + 1 := ⟨f2 - 1, by omega⟩
    rw [tokenize_cons_ws hc]
    exact ih f1 g2 p1 (p2 + 1) h1 (by simp at h2; omega)
  | punct c s1 s2 hc _ ih =>
    intro f1 f2 p1 p2 h1 h2
    obtain ⟨g1, rfl⟩ : ∃ g, f1 = g + 1 := ⟨f1 - 1, by omega⟩
    obtain ⟨g2, rfl⟩ : ∃ g, f2 = g + 1 := ⟨f2 - 1, by omega⟩
    obtain ⟨ts1, ts2, ht1, ht2, he⟩ :=
      ih g1 g2 (p1 + 1) (p2 + 1) (by simp at h1; omega) (by simp at h2; omega)
    exact ⟨⟨.TK_RESERVED, 0, p1, c⟩ :: ts1, ⟨.TK_RESERVED, 0, p2, c⟩ :: ts2,
      tokenize_cons_punct_ok hc ht1, tokenize_cons_punct_ok hc ht2,
      by rw [eraseL_cons, eraseL_cons, he]; rfl⟩
  | num r s1 s2 hne hr hh1 hh2 _ ih =>
    intro f1 f2 p1 p2 h1 h2
    obtain ⟨c, r1, rfl⟩ := List.exists_cons_of_ne_nil hne
    obtain ⟨g1, rfl⟩ : ∃ g, f1 = g + 1 := ⟨f1 - 1, by omega⟩
    obtain ⟨g2, rfl⟩ : ∃ g, f2 = g + 1 := ⟨f2 - 1, by omega⟩
    have hc : isdigit c = true := hr c (by simp)
    have hr1 : ∀ x ∈ r1, isdigit x = true := fun x hx => hr x (by simp [hx])
    obtain ⟨ts1, ts2, ht1, ht2, he⟩ :=
      ih g1 g2 (p1 + (c :: r1).length) (p2 + (c :: r1).length)
        (by simp at h1 ⊢; omega) (by simp at h2 ⊢; omega)
    exact ⟨⟨.TK_NUM, strtol_val (c :: r1), p1, c⟩ :: ts1,
      ⟨.TK_NUM, strtol_val (c :: r1), p2, c⟩ :: ts2,
      tokenize_digit_run_ok hc hr1 hh1 ht1,
      tokenize_digit_run_ok hc hr1 hh2 ht2,
      by rw [eraseL_cons, eraseL_cons, he]; rfl⟩

theorem consume_erase (op : Char) {ts1 ts2 : List Token} (h : eraseL ts1 = eraseL ts2) :
    (consume op ts1).1 = (consume op ts2).1 ∧
      eraseL (consume op ts1).2 = eraseL (consume op ts2).2 := by
  match ts1, ts2 with
  | [], [] => simp [consume]
  | [], t :: r => simp [eraseL] at h
  | t :: r, [] => simp [eraseL] at h
  | t1 :: r1, t2 :: r2 =>
    rw [eraseL_cons, eraseL_cons] at h
    simp only [List.cons.injEq] at h
    obtain ⟨hh, ht⟩ := h
    have hk : t1.kind = t2.kind := congrArg Prod.fst hh
    have hch : t1.ch = t2.ch := congrArg (fun x => x.2.2) hh
    simp only [consume]
    by_cases hcond : t1.kind ≠ TokenKind.TK_RESERVED ∨ t1.ch ≠ op
    · rw [if_pos hcond, if_pos (by rw [← hk, ← hch]; exact hcond)]
      exact ⟨rfl, by rw [eraseL_cons, eraseL_cons, hh, ht]⟩
    · rw [if_neg hcond, if_neg (by rw [← hk, ← hch]; exact hcond)]
      exact ⟨rfl, ht⟩

theorem expect_erase (op : Char) {ts1 ts2 : List Token} (h : eraseL ts1 = eraseL ts2) :
    (∃ r1 r2, expect op ts1 = .ok r1 ∧ expect op ts2 = .ok r2 ∧ eraseL r1 = eraseL r2) ∨
    (∃ e1 e2, expect op ts1 = .error e1 ∧ expect op ts2 = .error e2 ∧ e1.msg = e2.msg) := by
  match ts1, ts2 with
  | [], [] => exact Or.inr ⟨_, _, rfl, rfl, rfl⟩
  | [], t :: r => simp [eraseL] at h
  | t :: r, [] => simp [eraseL] at h
  | t1 :: r1, t2 :: r2 =>
    rw [eraseL_cons, eraseL_cons] at h
    simp only [List.cons.injEq] at h
    obtain ⟨hh, ht⟩ := h
    have hk : t1.kind = t2.kind := congrArg Prod.fst hh
    have hch : t1.ch = t2.ch := congrArg (fun x => x.2.2) hh
    simp only [expect]
    by_cases hcond : t1.kind ≠ TokenKind.TK_RESERVED ∨ t1.ch ≠ op
    · rw [if_pos hcond, if_pos (by rw [← hk, ← hch]; exact hcond)]
      exact Or.inr ⟨_, _, rfl, rfl, rfl⟩
    · rw [if_neg hcond, if_neg (by rw [← hk, ← hch]; exact hcond)]
      exact Or.inl ⟨r1, r2, rfl, rfl, ht⟩

theorem expect_number_erase {ts1 ts2 : List Token} (h : eraseL ts1 = eraseL ts2) :
    (∃ v r1 r2, expect_number ts1 = .ok (v, r1) ∧ expect_number ts2 = .ok (v, r2) ∧
      eraseL r1 = eraseL r2) ∨
    (∃ e1 e2, expect_number ts1 = .error e1 ∧ expect_number ts2 = .error e2 ∧
      e1.msg = e2.msg) := by
  match ts1, ts2 with
  | [], [] => exact Or.inr ⟨_, _, rfl, rfl, rfl⟩
  | [], t :: r => simp [eraseL] at h
  | t :: r, [] => simp [eraseL] at h
  | t1 :: r1, t2 :: r2 =>
    rw [eraseL_cons, eraseL_cons] at h
    simp only [List.cons.injEq] at h
    obtain ⟨hh, ht⟩ := h
    have hk : t1.kind = t2.kind := congrArg Prod.fst hh
    have hv : t1.val = t2.val := congrArg (fun x => x.2.1) hh
    simp only [expect_number]
    by_cases hcond : t1.kind ≠ TokenKind.TK_NUM
    · rw [if_pos hcond, if_pos (by rw [← hk]; exact hcond)]
      exact Or.inr ⟨_, _, rfl, rfl, rfl⟩
    · rw [if_neg hcond, if_neg (by rw [← hk]; exact hcond)]
      exact Or.inl ⟨t1.val, r1, r2, rfl, by rw [hv], ht⟩

/-- The parser depends only on the erased (offset-free) token stream: on
offset-equivalent streams every parser function produces the same node and
offset-equivalent rests, or errors with the same message, or runs out of
fuel on both. -/
theorem parse_erase :
    ∀ fuel : Nat,
      (∀ ts1 ts2, eraseL ts1 = eraseL ts2 → RRel (expr fuel ts1) (expr fuel ts2)) ∧
      (∀ (node : Node) (ts1 ts2 : List Token), eraseL ts1 = eraseL ts2 →
        RRel (expr_loop fuel node ts1) (expr_loop fuel node ts2)) ∧
      (∀ ts1 ts2, eraseL ts1 = eraseL ts2 → RRel (mul fuel ts1) (mul fuel ts2)) ∧
      (∀ (node : Node) (ts1 ts2 : List Token), eraseL ts1 = eraseL ts2 →
        RRel (mul_loop fuel node ts1) (mul_loop fuel node ts2)) ∧
      (∀ ts1 ts2, eraseL ts1 = eraseL ts2 → RRel (primary fuel ts1) (primary fuel ts2)) := by
  intro fuel
  induction fuel with
  | zero => refine ⟨?_, ?_, ?_, ?_, ?_⟩ <;> intros <;> exact RRel.fuelOut
  | succ f ih =>
    obtain ⟨ihe, ihel, ihm, ihml, ihp⟩ := ih
    refine ⟨?_, ?_, ?_, ?_, ?_⟩
    · intro ts1 ts2 h
      simp only [expr]
      have hm := ihm ts1 ts2 h
      revert hm
      generalize mul f ts1 = A
      generalize mul f ts2 = B
      intro hm
      cases hm with
      | ok n r1 r2 hr => exact ihel n r1 r2 hr
      | err e1 e2 hmsg => exact RRel.err e1 e2 hmsg
      | fuelOut => exact RRel.fuelOut
    · intro node ts1 ts2 h
      simp only [expr_loop]
      have hcp := consume_erase '+' h
      cases hc1 : consume '+' ts1 with
      | mk b1 r1 =>
        cases hc2 : consume '+' ts2 with
        | mk b2 r2 =>
          rw [hc1, hc2] at hcp
          have hbb : b1 = b2 := hcp.1
          have hrr : eraseL r1 = eraseL r2 := hcp.2
          subst hbb
          cases b1 with
          | true =>
            dsimp only
            have hm := ihm r1 r2 hrr
            revert hm
            generalize mul f r1 = A
            generalize mul f r2 = B
            intro hm
            cases hm with
            | ok n rr1 rr2 hr => exact ihel _ rr1 rr2 hr
            | err e1 e2 hmsg => exact RRel.err e1 e2 hmsg
            | fuelOut => exact RRel.fuelOut
          | false =>
            dsimp only
            have hcp3 := consume_erase '-' h
            cases hc3 : consume '-' ts1 with
            | mk b3 r3 =>
              cases hc4 : consume '-' ts2 with
              | mk b4 r4 =>
                rw [hc3, hc4] at hcp3
                have hbb3 : b3 = b4 := hcp3.1
                have hrr3 : eraseL r3 = eraseL r4 := hcp3.2
                subst hbb3
                cases b3 with
                | true =>
                  dsimp only
                  have hm := ihm r3 r4 hrr3
                  revert hm
                  generalize mul f r3 = A
                  generalize mul f r4 = B
                  intro hm
                  cases hm with
                  | ok n rr1 rr2 hr => exact ihel _ rr1 rr2 hr
                  | err e1 e2 hmsg => exact RRel.err e1 e2 hmsg
                  | fuelOut => exact RRel.fuelOut
                | false => exact RRel.ok node ts1 ts2 h
    · intro ts1 ts2 h
      simp only [mul]
      have hp := ihp ts1 ts2 h
      revert hp
      generalize primary f ts1 = A
      generalize primary f ts2 = B
      intro hp
      cases hp with
      | ok n r1 r2 hr => exact ihml n r1 r2 hr
      | err e1 e2 hmsg => exact RRel.err e1 e2 hmsg
      | fuelOut => exact RRel.fuelOut
    · intro node ts1 ts2 h
      simp only [mul_loop]
      have hcp := consume_erase '*' h
      cases hc1 : consume '*' ts1 with
      | mk b1 r1 =>
        cases hc2 : consume '*' ts2 with
        | mk b2 r2 =>
          rw [hc1, hc2] at hcp
          have hbb : b1 = b2 := hcp.1
          have hrr : eraseL r1 = eraseL r2 := hcp.2
          subst hbb
          cases b1 with
          | true =>
            dsimp only
            have hm := ihm r1 r2 hrr
            revert hm
            generalize mul f r1 = A
            generalize mul f r2 = B
            intro hm
            cases hm with
            | ok n rr1 rr2 hr => exact ihml _ rr1 rr2 hr
            | err e1 e2 hmsg => exact RRel.err e1 e2 hmsg
            | fuelOut => exact RRel.fuelOut
          | false =>
            dsimp only
            have hcp3 := consume_erase '/' h
            cases hc3 : consume '/' ts1 with
            | mk b3 r3 =>
              cases hc4 : consume '/' ts2 with
              | mk b4 r4 =>
                rw [hc3, hc4] at hcp3
                have hbb3 : b3 = b4 := hcp3.1
                have hrr3 : eraseL r3 = eraseL r4 := hcp3.2
                subst hbb3
                cases b3 with
                | true =>
                  dsimp only
                  have hm := ihm r3 r4 hrr3
                  revert hm
                  generalize mul f r3 = A
                  generalize mul f r4 = B
                  intro hm
                  cases hm with
                  | ok n rr1 rr2 hr => exact ihml _ rr1 rr2 hr
                  | err e1 e2 hmsg => exact RRel.err e1 e2 hmsg
                  | fuelOut => exact RRel.fuelOut
                | false => exact RRel.ok node ts1 ts2 h
    · intro ts1 ts2 h
      simp only [primary]
      have hcp := consume_erase '(' h
      cases hc1 : consume '(' ts1 with
      | mk b1 r1 =>
        cases hc2 : consume '(' ts2 with
        | mk b2 r2 =>
          rw [hc1, hc2] at hcp
          have hbb : b1 = b2 := hcp.1
          have hrr : eraseL r1 = eraseL r2 := hcp.2
          subst hbb
          cases b1 with
          | true =>
            dsimp only
            have hex := ihe r1 r2 hrr
            revert hex
            generalize expr f r1 = A
            generalize expr f r2 = B
            intro hex
            cases hex with
            | ok n rr1 rr2 hr =>
              dsimp only
              rcases expect_erase ')' hr with ⟨q1, q2, hx1, hx2, hq⟩ |
                ⟨e1, e2, hx1, hx2, hmsg⟩
              · rw [hx1, hx2]
                exact RRel.ok n q1 q2 hq
              · rw [hx1, hx2]
                exact RRel.err e1 e2 hmsg
            | err e1 e2 hmsg => exact RRel.err e1 e2 hmsg
            | fuelOut => exact RRel.fuelOut
          | false =>
            dsimp only
            rcases expect_number_erase h with ⟨v, q1, q2, hx1, hx2, hq⟩ |
              ⟨e1, e2, hx1, hx2, hmsg⟩
            · rw [hx1, hx2]
              exact RRel.ok (new_num (int_of_long v)) q1 q2 hq
            · rw [hx1, hx2]
              exact RRel.err e1 e2 hmsg

/-- C8: two source strings that differ only in the whitespace between
tokens tokenize to streams with the same kinds, values and characters in
the same order (only the recorded offsets differ), and the whole
compilation writes the same text to standard output. -/
theorem C8_whitespace_insensitive :
    ∀ s1 s2 : List Char, WsEquiv s1 s2 →
      (∃ ts1 ts2, tokenize0 s1 = .ok ts1 ∧ tokenize0 s2 = .ok ts2 ∧
        eraseL ts1 = eraseL ts2) ∧
      (main_run s1).1 = (main_run s2).1 := by
  intro s1 s2 hws
  obtain ⟨ts1, ts2, h1, h2, he⟩ :=
    tokenize_wsEquiv hws (s1.length + 1) (s2.length + 1) 0 0 (by omega) (by omega)
  refine ⟨⟨ts1, ts2, h1, h2, he⟩, ?_⟩
  have hlen : ts1.length = ts2.length := by
    have := congrArg List.length he
    simpa [eraseL] using this
  have hpf : parse_fuel ts2 = parse_fuel ts1 := by simp [parse_fuel, hlen]
  have hrel := (parse_erase (parse_fuel ts1)).1 ts1 ts2 he
  simp only [main_run, tokenize0] at h1 h2 ⊢
  rw [h1, h2]
  dsimp only
  rw [hpf]
  revert hrel
  generalize expr (parse_fuel ts1) ts1 = A
  generalize expr (parse_fuel ts1) ts2 = B
  intro hrel
  cases hrel with
  | ok n r1 r2 hr => rfl
  | err e1 e2 hmsg => rfl
  | fuelOut => rfl

/-- The whitespace-equivalence derivation for the spec's example pair. -/
theorem ws_example : WsEquiv (String.toList " 1 +  2 ") (String.toList "1+2") := by
  show WsEquiv [' ', '1', ' ', '+', ' ', ' ', '2', ' '] ['1', '+', '2']
  refine WsEquiv.wsL ' ' _ _ (by decide) ?_
  refine WsEquiv.num ['1'] [' ', '+', ' ', ' ', '2', ' '] ['+', '2']
    (by simp) (by decide) (by decide) (by decide) ?_
  refine WsEquiv.wsL ' ' _ _ (by decide) ?_
  refine WsEquiv.punct '+' _ _ (by decide) ?_
  refine WsEquiv.wsL ' ' _ _ (by decide) ?_
  refine WsEquiv.wsL ' ' _ _ (by decide) ?_
  refine WsEquiv.num ['2'] [' '] [] (by simp) (by decide) (by decide) (by decide) ?_
  refine WsEquiv.wsL ' ' _ _ (by decide) ?_
  exact WsEquiv.nil

/-- Witness for C8 at the spec's example pair `" 1 +  2 "` and `"1+2"`. -/
theorem C8_whitespace_insensitive_witness :
    (∃ ts1 ts2, tokenize0 (String.toList " 1 +  2 ") = .ok ts1 ∧
      tokenize0 (String.toList "1+2") = .ok ts2 ∧ eraseL ts1 = eraseL ts2) ∧
    (main_run (String.toList " 1 +  2 ")).1 = (main_run (String.toList "1+2")).1 :=
  C8_whitespace_insensitive _ _ ws_example

end NineCC
